import Mathlib

/-!
# Verification of the `corpse` TF-IDF corpus engine

Shallow embedding of `text/corpse` (corpus.go, options.go,
internal/utils/sortedset.go) from the `lrstanley/x` repository.

Modelling conventions:
* Go `float32` values are modelled by `Fl`: an exact real number, `+Inf`,
  `-Inf`, or `NaN`, with IEEE-754 special-value propagation for the
  operations the code uses (`/`, `*`, `+`, `math32.Log`, `math32.Sqrt`,
  `> 0`).  Rounding is abstracted away (reals are exact).
* Go `map[string]int` is modelled by an association list with
  zero-defaulting lookup (`mapGet`), mirroring Go's zero value on a
  missing key.
* The injected tokenizer and term filters are modelled as functions
  producing/transforming a finite list of terms (the code's lazy
  `iter.Seq[string]` enumerated eagerly); prune hooks as functions from
  the document count and the frequency snapshot to a list of terms.
* `make([]float32, n)` panics in Go when `n < 0`; `CreateVector` is
  therefore modelled as returning `Option`, with `none` for that panic.
-/

namespace Corpse

/-- A `float32` value: a finite (exact) real, an infinity, or NaN. -/
inductive Fl where
  | fin (x : ℝ)
  | inf
  | neginf
  | nan

namespace Fl

/-- IEEE addition on `Fl` (Go `+` on `float32`, exact reals). -/
noncomputable def add : Fl → Fl → Fl
  | nan, _ => nan
  | _, nan => nan
  | fin x, fin y => fin (x + y)
  | fin _, inf => inf
  | fin _, neginf => neginf
  | inf, fin _ => inf
  | neginf, fin _ => neginf
  | inf, inf => inf
  | neginf, neginf => neginf
  | inf, neginf => nan
  | neginf, inf => nan

/-- IEEE multiplication on `Fl` (Go `*` on `float32`, exact reals). -/
noncomputable def mul : Fl → Fl → Fl
  | nan, _ => nan
  | _, nan => nan
  | fin x, fin y => fin (x * y)
  | fin x, inf => if 0 < x then inf else if x < 0 then neginf else nan
  | fin x, neginf => if 0 < x then neginf else if x < 0 then inf else nan
  | inf, fin y => if 0 < y then inf else if y < 0 then neginf else nan
  | neginf, fin y => if 0 < y then neginf else if y < 0 then inf else nan
  | inf, inf => inf
  | neginf, neginf => inf
  | inf, neginf => neginf
  | neginf, inf => neginf

/-- IEEE division on `Fl` (Go `/` on `float32`): `0/0 = NaN`,
`x/0 = ±Inf` for `x ≠ 0`, exact real quotient otherwise. -/
noncomputable def div : Fl → Fl → Fl
  | nan, _ => nan
  | _, nan => nan
  | fin x, fin y =>
      if y = 0 then (if x = 0 then nan else if 0 < x then inf else neginf)
      else fin (x / y)
  | fin _, inf => fin 0
  | fin _, neginf => fin 0
  | inf, fin y => if y < 0 then neginf else inf
  | neginf, fin y => if y < 0 then inf else neginf
  | inf, inf => nan
  | inf, neginf => nan
  | neginf, inf => nan
  | neginf, neginf => nan

/-- `math32.Log`: natural log for positive finite input, `-Inf` at `0`,
`NaN` for negative input or NaN, `+Inf` at `+Inf`. -/
noncomputable def log : Fl → Fl
  | fin x => if 0 < x then fin (Real.log x) else if x = 0 then neginf else nan
  | inf => inf
  | neginf => nan
  | nan => nan

/-- `math32.Sqrt`: square root for nonnegative finite input, `NaN` for
negative input or NaN, `+Inf` at `+Inf`. -/
noncomputable def sqrt : Fl → Fl
  | fin x => if 0 ≤ x then fin (Real.sqrt x) else nan
  | inf => inf
  | neginf => nan
  | nan => nan

/-- The Go comparison `v > 0` on a `float32` (false for NaN and `-Inf`). -/
def gtZero : Fl → Prop
  | fin x => 0 < x
  | inf => True
  | neginf => False
  | nan => False

end Fl

/-! ## Go `map[string]int` as an association list -/

/-- Value of `m[k]` in Go: the stored value, or `0` when absent. -/
def mapGet : List (String × ℕ) → String → ℕ
  | [], _ => 0
  | (k, v) :: rest, s => if s = k then v else mapGet rest s

/-- `m[k]++` in Go: increments the entry, inserting `(k, 1)` if absent. -/
def mapIncr : List (String × ℕ) → String → List (String × ℕ)
  | [], s => [(s, 1)]
  | (k, v) :: rest, s => if s = k then (k, v + 1) :: rest else (k, v) :: mapIncr rest s

/-- `delete(m, k)` in Go: removes the binding for `k`. -/
def mapDel (m : List (String × ℕ)) (s : String) : List (String × ℕ) :=
  m.filter (fun p => p.1 ≠ s)

/-- The key set of the map (in storage order). -/
def mapKeys (m : List (String × ℕ)) : List String :=
  m.map Prod.fst

/-! ## `utils.SortedSet[string]` as a sorted duplicate-free list

The Go implementation stores a sorted slice and uses `slices.BinarySearch`
plus `slices.Insert`/`slices.Delete`.  On a sorted slice, binary-search
insertion is extensionally ordered insertion and binary-search deletion is
`List.erase`; the `len == 0` special case in `Add` coincides with the
`[]` equation below. -/

namespace SortedSet

/-- `SortedSet.Add`: insert keeping order, no duplicates. -/
def add : List String → String → List String
  | [], v => [v]
  | x :: xs, v => if v = x then x :: xs else if v < x then v :: x :: xs else x :: add xs v

/-- `SortedSet.Remove`: delete the element if present. -/
def remove (l : List String) (v : String) : List String :=
  l.erase v

end SortedSet

/-! ## The corpus -/

/-- A prune hook: `func(documents int, termFreq map[string]int) []string`. -/
def PruneHook : Type :=
  ℕ → List (String × ℕ) → List String

/-- The `Corpus` struct.  `termFreq` is the per-term document-frequency
map, `termIndex` the sorted term set fixing vector coordinates. -/
structure Corpus where
  maxVectorSize : ℤ
  tokenizer : String → List String
  termFilters : List (List String → List String)
  pruneHooks : List PruneHook
  termFreq : List (String × ℕ)
  termIndex : List String
  documents : ℕ
  hasPruned : Bool

/-- A configuration option, `type Option func(*Corpus)`. -/
def COption : Type :=
  Corpus → Corpus

/-- `WithMaxVectorSize`: stores the given size (no validation). -/
def withMaxVectorSize (size : ℤ) : COption :=
  fun c => { c with maxVectorSize := size }

/-- `WithTokenizer`. -/
def withTokenizer (t : String → List String) : COption :=
  fun c => { c with tokenizer := t }

/-- `WithTermFilters`. -/
def withTermFilters (fs : List (List String → List String)) : COption :=
  fun c => { c with termFilters := fs }

/-- `WithPruneHooks`. -/
def withPruneHooks (hs : List PruneHook) : COption :=
  fun c => { c with pruneHooks := hs }

/-- `New`: the defaults (max vector size 256, empty state), then the
options applied in order.  The default tokenizer is abstracted as the
function yielding no terms composed with whatever `WithTokenizer`
installs; claims quantify over the injected pipeline. -/
def new (tok : String → List String) (options : List COption) : Corpus :=
  options.foldl (fun c o => o c)
    { maxVectorSize := 256
      tokenizer := tok
      termFilters := []
      pruneHooks := []
      termFreq := []
      termIndex := []
      documents := 0
      hasPruned := false }

namespace Corpus

/-- `Corpus.tokenize`: the tokenizer followed by the term filters in
registration order. -/
def tok (c : Corpus) (text : String) : List String :=
  c.termFilters.foldl (fun seq f => f seq) (c.tokenizer text)

/-- `Corpus.Reset`: clears the frequency map, the term index and the
document count.  It does not touch `hasPruned`. -/
def reset (c : Corpus) : Corpus :=
  { c with termFreq := [], termIndex := [], documents := 0 }

/-- The loop body of `IndexDocument`: walk the token stream with the
pooled `seenTerms` set, bumping `termFreq` and inserting into
`termIndex` on each first occurrence. -/
def indexLoop : List String → List String → List (String × ℕ) → List String →
    List (String × ℕ) × List String
  | [], _, tf, ti => (tf, ti)
  | t :: ts, seen, tf, ti =>
      if t ∈ seen then indexLoop ts seen tf ti
      else indexLoop ts (t :: seen) (mapIncr tf t) (SortedSet.add ti t)

/-- `Corpus.IndexDocument`. -/
def indexDocument (c : Corpus) (text : String) : Corpus :=
  let r := indexLoop (c.tok text) [] c.termFreq c.termIndex
  { c with termFreq := r.1, termIndex := r.2,
           documents := c.documents + 1, hasPruned := false }

/-- The terms returned by all prune hooks, each hook fed the document
count and the same entry snapshot of `termFreq`. -/
def removedTerms (c : Corpus) : List String :=
  (c.pruneHooks.map (fun hook => hook c.documents c.termFreq)).flatten

/-- `Corpus.Prune`: early return unless work is pending; otherwise run
every hook on the entry snapshot and delete the returned terms from both
the frequency map and the term index, then set `hasPruned`. -/
def prune (c : Corpus) : Corpus :=
  if c.hasPruned ∨ c.documents = 0 ∨ c.pruneHooks.length = 0 then c
  else
    let snapshot := c.termFreq
    let r := c.pruneHooks.foldl
      (fun (acc : List (String × ℕ) × List String) hook =>
        (hook c.documents snapshot).foldl
          (fun acc2 term => (mapDel acc2.1 term, SortedSet.remove acc2.2 term)) acc)
      (c.termFreq, c.termIndex)
    { c with termFreq := r.1, termIndex := r.2, hasPruned := true }

/-- `Corpus.GetTermFrequency` (the `maps.Clone` copy is identity in a
pure model). -/
def getTermFrequency (c : Corpus) : List (String × ℕ) :=
  c.termFreq

/-- `Corpus.GetDocumentCount`. -/
def getDocumentCount (c : Corpus) : ℕ :=
  c.documents

end Corpus

/-- The local scratch frequency table of `CreateVector`: every token
occurrence counted (not deduplicated). -/
def countTokens (tokens : List String) : List (String × ℕ) :=
  tokens.foldl mapIncr []

/-- `magnitude += val * val` folded over the vector, starting from `0`. -/
noncomputable def sumSquares (v : List Fl) : Fl :=
  v.foldl (fun acc x => Fl.add acc (Fl.mul x x)) (Fl.fin 0)

/-- `math32.Sqrt` of the sum of squares: the vector's Euclidean norm as
the code computes it. -/
noncomputable def euclideanNorm (v : List Fl) : Fl :=
  Fl.sqrt (sumSquares v)

open Classical in
/-- The normalization step of `CreateVector`: divide each component by
the magnitude when `magnitude > 0`, else leave the vector untouched. -/
noncomputable def normalizeVec (v : List Fl) : List Fl :=
  if Fl.gtZero (euclideanNorm v) then v.map (fun x => Fl.div x (euclideanNorm v)) else v

namespace Corpus

/-- `min(len(c.termIndex.All()), c.maxVectorSize)`: the length passed to
`make` (negative when `maxVectorSize` is negative — a Go panic). -/
def vecLen (c : Corpus) : ℤ :=
  min (c.termIndex.length : ℤ) c.maxVectorSize

/-- The idf factor:
`math32.Log(float32(c.documents)/float32(c.termFreq[term])) + 1` in
`float32` arithmetic. -/
noncomputable def idfEntry (c : Corpus) (term : String) : Fl :=
  Fl.add (Fl.log (Fl.div (Fl.fin c.documents) (Fl.fin (mapGet c.termFreq term))))
    (Fl.fin 1)

/-- One unnormalized vector component:
`tf * idf = (localFreq[term]/totalTerms) * (Log(documents/termFreq[term]) + 1)`,
in `float32` arithmetic. -/
noncomputable def tfidfEntry (c : Corpus) (localFreq : List (String × ℕ))
    (totalTerms : ℕ) (term : String) : Fl :=
  Fl.mul
    (Fl.div (Fl.fin (mapGet localFreq term)) (Fl.fin totalTerms))
    (c.idfEntry term)

/-- The vector before normalization: one `tf * idf` entry per term of the
first `min(|termIndex|, maxVectorSize)` terms of the sorted index. -/
noncomputable def rawVector (c : Corpus) (text : String) : List Fl :=
  let tokens := c.tok text
  (c.termIndex.take c.vecLen.toNat).map
    (c.tfidfEntry (countTokens tokens) tokens.length)

/-- `Corpus.CreateVector`: prune, build the tf-idf vector over the pruned
state, then L2-normalize.  `none` models the `make([]float32, n)` panic
when `n = min(|termIndex|, maxVectorSize) < 0`. -/
noncomputable def createVector (c : Corpus) (text : String) : Option (List Fl) :=
  let c2 := c.prune
  if c2.vecLen < 0 then none
  else some (normalizeVec (c2.rawVector text))

/-- `Corpus.CreatePaddedVector`: append zeros up to `maxVectorSize` when
the sparse vector is shorter. -/
noncomputable def createPaddedVector (c : Corpus) (text : String) : Option (List Fl) :=
  (c.createVector text).map (fun v =>
    if (v.length : ℤ) < c.maxVectorSize then
      v ++ List.replicate (c.maxVectorSize - (v.length : ℤ)).toNat (Fl.fin 0)
    else v)

end Corpus

/-- A vector "matches nothing" when every component equals `0.0`
(`IsNoMatchVector`'s `val != 0.0` test is false exactly on finite `0`). -/
def allZero (v : List Fl) : Prop :=
  ∀ x ∈ v, x = Fl.fin 0

/-! ## Reachable states and the corpus invariant -/

/-- The option values the package exports: all of them only rewrite the
injected configuration fields. -/
inductive IsOption : COption → Prop
  | maxVec (s : ℤ) : IsOption (withMaxVectorSize s)
  | tokenizer (t : String → List String) : IsOption (withTokenizer t)
  | filters (fs : List (List String → List String)) : IsOption (withTermFilters fs)
  | hooks (hs : List PruneHook) : IsOption (withPruneHooks hs)

/-- Corpus states reachable through the public constructor and the
mutating operations. -/
inductive Reachable : Corpus → Prop
  | new (tok : String → List String) (opts : List COption)
      (h : ∀ o ∈ opts, IsOption o) : Reachable (new tok opts)
  | index (c : Corpus) (text : String) : Reachable c → Reachable (c.indexDocument text)
  | prune (c : Corpus) : Reachable c → Reachable c.prune
  | reset (c : Corpus) : Reachable c → Reachable c.reset

/-- The internal corpus invariant: the term index is strictly sorted
(hence duplicate-free) and carries exactly the keys of the frequency
map, whose keys are duplicate-free and whose values lie between `1` and
the document count. -/
structure Inv (c : Corpus) : Prop where
  sorted : c.termIndex.Sorted (· < ·)
  keysNodup : (mapKeys c.termFreq).Nodup
  sync : ∀ t, t ∈ c.termIndex ↔ t ∈ mapKeys c.termFreq
  bounds : ∀ t ∈ mapKeys c.termFreq,
    1 ≤ mapGet c.termFreq t ∧ mapGet c.termFreq t ≤ c.documents

/-! ## Association-list map lemmas -/

theorem mapGet_incr (m : List (String × ℕ)) (t s : String) :
    mapGet (mapIncr m t) s = mapGet m s + (if s = t then 1 else 0) := by
  induction m with
  | nil => by_cases h : s = t <;> simp [mapIncr, mapGet, h]
  | cons kv rest ih =>
    obtain ⟨k, v⟩ := kv
    by_cases hk : t = k
    · subst hk
      by_cases hs : s = t <;> simp [mapIncr, mapGet, hs]
    · by_cases hs : s = k
      · subst hs
        have : ¬s = t := fun h => hk (h ▸ rfl)
        simp [mapIncr, mapGet, hk, this]
      · simp [mapIncr, mapGet, hk, hs, ih]

theorem mapKeys_incr (m : List (String × ℕ)) (t : String) :
    mapKeys (mapIncr m t) =
      if t ∈ mapKeys m then mapKeys m else mapKeys m ++ [t] := by
  induction m with
  | nil => simp [mapIncr, mapKeys]
  | cons kv rest ih =>
    obtain ⟨k, v⟩ := kv
    by_cases hk : t = k
    · subst hk
      simp [mapIncr, mapKeys]
    · simp only [mapIncr, if_neg hk, mapKeys, List.map_cons] at ih ⊢
      rw [ih]
      by_cases hmem : t ∈ List.map Prod.fst rest
      · simp [hmem]
      · simp [hmem, hk]

theorem mem_mapKeys_incr (m : List (String × ℕ)) (t s : String) :
    s ∈ mapKeys (mapIncr m t) ↔ s ∈ mapKeys m ∨ s = t := by
  rw [mapKeys_incr]
  by_cases hmem : t ∈ mapKeys m
  · simp only [if_pos hmem]
    constructor
    · exact Or.inl
    · rintro (h | rfl) <;> [exact h; exact hmem]
  · simp [if_neg hmem]

theorem nodup_mapKeys_incr (m : List (String × ℕ)) (t : String)
    (h : (mapKeys m).Nodup) : (mapKeys (mapIncr m t)).Nodup := by
  rw [mapKeys_incr]
  by_cases hmem : t ∈ mapKeys m
  · simpa [hmem]
  · rw [if_neg hmem]
    simp [List.nodup_append, h, hmem]

theorem mapGet_del (m : List (String × ℕ)) (t s : String) :
    mapGet (mapDel m t) s = if s = t then 0 else mapGet m s := by
  induction m with
  | nil => simp [mapDel, mapGet]
  | cons kv rest ih =>
    obtain ⟨k, v⟩ := kv
    by_cases hk : k = t
    · subst hk
      by_cases hs : s = k <;> simp [mapDel, mapGet, hs] at ih ⊢ <;> simp [ih, hs]
    · by_cases hs : s = k
      · subst hs
        have : ¬s = t := fun h => hk (h ▸ rfl)
        simp [mapDel, mapGet, hk, this]
      · simp [mapDel, mapGet, hk, hs] at ih ⊢
        exact ih

theorem mapKeys_del (m : List (String × ℕ)) (t : String) :
    mapKeys (mapDel m t) = (mapKeys m).filter (fun k => k ≠ t) := by
  induction m with
  | nil => simp [mapDel, mapKeys]
  | cons kv rest ih =>
    obtain ⟨k, v⟩ := kv
    by_cases hk : k = t <;> simp [mapDel, mapKeys, hk] at ih ⊢ <;> simpa [mapDel, mapKeys] using ih

theorem mem_mapKeys_del (m : List (String × ℕ)) (t s : String) :
    s ∈ mapKeys (mapDel m t) ↔ s ∈ mapKeys m ∧ s ≠ t := by
  rw [mapKeys_del]
  simp [List.mem_filter]

theorem nodup_mapKeys_del (m : List (String × ℕ)) (t : String)
    (h : (mapKeys m).Nodup) : (mapKeys (mapDel m t)).Nodup := by
  rw [mapKeys_del]
  exact h.filter _

/-! ## Sorted-set lemmas -/

theorem SortedSet.mem_add (l : List String) (v a : String) :
    a ∈ SortedSet.add l v ↔ a = v ∨ a ∈ l := by
  induction l with
  | nil => simp [SortedSet.add]
  | cons x xs ih =>
    by_cases hv : v = x
    · subst hv
      simp only [SortedSet.add, if_pos rfl]
      constructor
      · rintro h; exact Or.inr h
      · rintro (rfl | h) <;> simp_all
    · by_cases hlt : v < x
      · simp [SortedSet.add, hv, hlt, List.mem_cons]
      · simp [SortedSet.add, hv, hlt, List.mem_cons, ih]
        tauto

theorem SortedSet.sorted_add (l : List String) (v : String)
    (h : l.Sorted (· < ·)) : (SortedSet.add l v).Sorted (· < ·) := by
  induction l with
  | nil => simp [SortedSet.add]
  | cons x xs ih =>
    rw [List.sorted_cons] at h
    obtain ⟨hx, hxs⟩ := h
    by_cases hv : v = x
    · subst hv
      simp only [SortedSet.add, if_pos rfl]
      exact List.sorted_cons.mpr ⟨hx, hxs⟩
    · by_cases hlt : v < x
      · simp only [SortedSet.add, if_neg hv, if_pos hlt]
        refine List.sorted_cons.mpr ⟨?_, List.sorted_cons.mpr ⟨hx, hxs⟩⟩
        intro b hb
        rcases List.mem_cons.mp hb with rfl | hb
        · exact hlt
        · exact lt_trans hlt (hx b hb)
      · have hxv : x < v := by
          rcases lt_trichotomy v x with h1 | h1 | h1
          · exact absurd h1 hlt
          · exact absurd h1 hv
          · exact h1
        simp only [SortedSet.add, if_neg hv, if_neg hlt]
        refine List.sorted_cons.mpr ⟨?_, ih hxs⟩
        intro b hb
        rcases (SortedSet.mem_add xs v b).mp hb with rfl | hb
        · exact hxv
        · exact hx b hb

theorem SortedSet.sorted_remove (l : List String) (v : String)
    (h : l.Sorted (· < ·)) : (SortedSet.remove l v).Sorted (· < ·) :=
  h.sublist (List.erase_sublist v l)

theorem SortedSet.mem_remove (l : List String) (v a : String)
    (h : l.Nodup) : a ∈ SortedSet.remove l v ↔ a ∈ l ∧ a ≠ v := by
  unfold SortedSet.remove
  rw [List.Nodup.mem_erase_iff h]
  exact and_comm

/-- `mapGet` defaults to `0` outside the key set. -/
theorem mapGet_eq_zero_of_not_mem (m : List (String × ℕ)) (s : String)
    (h : s ∉ mapKeys m) : mapGet m s = 0 := by
  induction m with
  | nil => rfl
  | cons kv rest ih =>
    obtain ⟨k, v⟩ := kv
    simp only [mapKeys, List.map_cons, List.mem_cons, not_or] at h
    simp only [mapGet, if_neg h.1]
    exact ih h.2

/-! ## The `IndexDocument` loop -/

namespace Corpus

theorem indexLoop_spec (tokens : List String) : ∀ (seen : List String)
    (tf : List (String × ℕ)) (ti : List String),
    (∀ s, mapGet (indexLoop tokens seen tf ti).1 s =
        mapGet tf s + (if s ∈ tokens ∧ s ∉ seen then 1 else 0)) ∧
    (∀ s, s ∈ mapKeys (indexLoop tokens seen tf ti).1 ↔
        s ∈ mapKeys tf ∨ (s ∈ tokens ∧ s ∉ seen)) ∧
    (∀ s, s ∈ (indexLoop tokens seen tf ti).2 ↔
        s ∈ ti ∨ (s ∈ tokens ∧ s ∉ seen)) ∧
    ((mapKeys tf).Nodup → (mapKeys (indexLoop tokens seen tf ti).1).Nodup) ∧
    (ti.Sorted (· < ·) → (indexLoop tokens seen tf ti).2.Sorted (· < ·)) := by
  induction tokens with
  | nil =>
    intro seen tf ti
    simp [indexLoop]
  | cons t ts ih =>
    intro seen tf ti
    by_cases hseen : t ∈ seen
    · simp only [indexLoop, if_pos hseen]
      obtain ⟨h1, h2, h3, h4, h5⟩ := ih seen tf ti
      have hcond : ∀ s, (s ∈ t :: ts ∧ s ∉ seen) ↔ (s ∈ ts ∧ s ∉ seen) := by
        intro s
        by_cases hst : s = t
        · subst hst; simp [hseen]
        · simp [List.mem_cons, hst]
      refine ⟨?_, ?_, ?_, h4, h5⟩
      · intro s; rw [h1 s, if_congr (hcond s) rfl rfl]
      · intro s; rw [h2 s, hcond s]
      · intro s; rw [h3 s, hcond s]
    · simp only [indexLoop, if_neg hseen]
      obtain ⟨h1, h2, h3, h4, h5⟩ :=
        ih (t :: seen) (mapIncr tf t) (SortedSet.add ti t)
      refine ⟨?_, ?_, ?_, ?_, ?_⟩
      · intro s
        rw [h1 s, mapGet_incr]
        by_cases hst : s = t
        · subst hst
          simp [hseen, List.mem_cons]
        · simp [hst, List.mem_cons]
      · intro s
        rw [h2 s, mem_mapKeys_incr]
        by_cases hst : s = t
        · subst hst
          simp [hseen, List.mem_cons]
        · simp [hst, List.mem_cons]
      · intro s
        rw [h3 s, SortedSet.mem_add]
        by_cases hst : s = t
        · subst hst
          simp [hseen, List.mem_cons]
        · simp [hst, List.mem_cons]
      · intro hnd
        exact h4 (nodup_mapKeys_incr tf t hnd)
      · intro hs
        exact h5 (SortedSet.sorted_add ti t hs)

theorem indexDocument_termFreq (c : Corpus) (text : String) (s : String) :
    mapGet (c.indexDocument text).termFreq s =
      mapGet c.termFreq s + (if s ∈ c.tok text then 1 else 0) := by
  have h := (indexLoop_spec (c.tok text) [] c.termFreq c.termIndex).1 s
  simpa [indexDocument] using h

theorem indexDocument_termIndex_mem (c : Corpus) (text : String) (s : String) :
    s ∈ (c.indexDocument text).termIndex ↔ s ∈ c.termIndex ∨ s ∈ c.tok text := by
  have h := (indexLoop_spec (c.tok text) [] c.termFreq c.termIndex).2.2.1 s
  simpa [indexDocument] using h

theorem indexDocument_documents (c : Corpus) (text : String) :
    (c.indexDocument text).documents = c.documents + 1 := rfl

theorem indexDocument_hasPruned (c : Corpus) (text : String) :
    (c.indexDocument text).hasPruned = false := rfl

theorem indexDocument_config (c : Corpus) (text : String) :
    (c.indexDocument text).maxVectorSize = c.maxVectorSize ∧
    (c.indexDocument text).tokenizer = c.tokenizer ∧
    (c.indexDocument text).termFilters = c.termFilters ∧
    (c.indexDocument text).pruneHooks = c.pruneHooks :=
  ⟨rfl, rfl, rfl, rfl⟩

theorem indexDocument_empty (c : Corpus) (text : String) (h : c.tok text = []) :
    (c.indexDocument text).termFreq = c.termFreq ∧
    (c.indexDocument text).termIndex = c.termIndex := by
  constructor <;> simp [indexDocument, h, indexLoop]

end Corpus

/-! ## The `Prune` deletion fold -/

/-- Delete each listed term from the frequency map, left to right. -/
def massDel (tf : List (String × ℕ)) (terms : List String) : List (String × ℕ) :=
  terms.foldl mapDel tf

/-- Remove each listed term from the term index, left to right. -/
def massRemove (ti : List String) (terms : List String) : List String :=
  terms.foldl SortedSet.remove ti

theorem pairFold_eq (terms : List String) :
    ∀ p : List (String × ℕ) × List String,
    terms.foldl (fun acc2 term => (mapDel acc2.1 term, SortedSet.remove acc2.2 term)) p
      = (massDel p.1 terms, massRemove p.2 terms) := by
  induction terms with
  | nil => intro p; rfl
  | cons t ts ih =>
    intro p
    simp only [List.foldl_cons]
    rw [ih]
    rfl

theorem mapGet_massDel (terms : List String) :
    ∀ tf s, mapGet (massDel tf terms) s = if s ∈ terms then 0 else mapGet tf s := by
  induction terms with
  | nil => intro tf s; simp [massDel]
  | cons t ts ih =>
    intro tf s
    have hstep : massDel tf (t :: ts) = massDel (mapDel tf t) ts := rfl
    rw [hstep, ih, mapGet_del]
    by_cases h1 : s ∈ ts
    · simp [h1]
    · by_cases h2 : s = t <;> simp [h1, h2]

theorem mem_mapKeys_massDel (terms : List String) :
    ∀ tf s, s ∈ mapKeys (massDel tf terms) ↔ s ∈ mapKeys tf ∧ s ∉ terms := by
  induction terms with
  | nil => intro tf s; simp [massDel]
  | cons t ts ih =>
    intro tf s
    have hstep : massDel tf (t :: ts) = massDel (mapDel tf t) ts := rfl
    rw [hstep, ih, mem_mapKeys_del]
    simp [List.mem_cons]
    tauto

theorem nodup_mapKeys_massDel (terms : List String) :
    ∀ tf, (mapKeys tf).Nodup → (mapKeys (massDel tf terms)).Nodup := by
  induction terms with
  | nil => intro tf h; exact h
  | cons t ts ih =>
    intro tf h
    exact ih (mapDel tf t) (nodup_mapKeys_del tf t h)

theorem nodup_massRemove (terms : List String) :
    ∀ ti : List String, ti.Nodup → (massRemove ti terms).Nodup := by
  induction terms with
  | nil => intro ti h; exact h
  | cons t ts ih =>
    intro ti h
    exact ih (ti.erase t) (h.erase t)

theorem mem_massRemove (terms : List String) :
    ∀ (ti : List String) (s : String), ti.Nodup →
      (s ∈ massRemove ti terms ↔ s ∈ ti ∧ s ∉ terms) := by
  induction terms with
  | nil => intro ti s _; simp [massRemove]
  | cons t ts ih =>
    intro ti s hnd
    have hstep : massRemove ti (t :: ts) = massRemove (SortedSet.remove ti t) ts := rfl
    rw [hstep, ih (SortedSet.remove ti t) s (hnd.erase t),
      SortedSet.mem_remove ti t s hnd]
    simp [List.mem_cons]
    tauto

theorem sorted_massRemove (terms : List String) :
    ∀ ti : List String, ti.Sorted (· < ·) → (massRemove ti terms).Sorted (· < ·) := by
  induction terms with
  | nil => intro ti h; exact h
  | cons t ts ih =>
    intro ti h
    exact ih (SortedSet.remove ti t) (SortedSet.sorted_remove ti t h)

namespace Corpus

theorem prune_noop (c : Corpus)
    (h : c.hasPruned = true ∨ c.documents = 0 ∨ c.pruneHooks.length = 0) :
    c.prune = c := by
  unfold prune
  rw [if_pos h]

theorem hookFold_eq (docs : ℕ) (snap : List (String × ℕ)) (hooks : List PruneHook) :
    ∀ (tf : List (String × ℕ)) (ti : List String),
    hooks.foldl
        (fun acc hook => (hook docs snap).foldl
          (fun acc2 term => (mapDel acc2.1 term, SortedSet.remove acc2.2 term)) acc)
        (tf, ti)
      = (massDel tf ((hooks.map (fun hook => hook docs snap)).flatten),
         massRemove ti ((hooks.map (fun hook => hook docs snap)).flatten)) := by
  induction hooks with
  | nil => intro tf ti; simp [massDel, massRemove]
  | cons hk hks ih =>
    intro tf ti
    simp only [List.foldl_cons, List.map_cons, List.flatten_cons]
    rw [pairFold_eq, ih]
    simp [massDel, massRemove, List.foldl_append]

/-- The running case of `Prune`: every hook sees the entry snapshot, and
all returned terms are deleted from both structures. -/
theorem prune_run (c : Corpus)
    (h : ¬(c.hasPruned = true ∨ c.documents = 0 ∨ c.pruneHooks.length = 0)) :
    c.prune = { c with termFreq := massDel c.termFreq c.removedTerms,
                       termIndex := massRemove c.termIndex c.removedTerms,
                       hasPruned := true } := by
  unfold prune
  rw [if_neg h]
  show { c with termFreq := _, termIndex := _, hasPruned := true } = _
  rw [hookFold_eq c.documents c.termFreq c.pruneHooks c.termFreq c.termIndex]
  rfl

/-- `Prune` never changes the configuration or the document count. -/
theorem prune_frame (c : Corpus) :
    c.prune.maxVectorSize = c.maxVectorSize ∧ c.prune.tokenizer = c.tokenizer ∧
    c.prune.termFilters = c.termFilters ∧ c.prune.pruneHooks = c.pruneHooks ∧
    c.prune.documents = c.documents := by
  by_cases h : c.hasPruned = true ∨ c.documents = 0 ∨ c.pruneHooks.length = 0
  · rw [prune_noop c h]
    exact ⟨rfl, rfl, rfl, rfl, rfl⟩
  · rw [prune_run c h]
    exact ⟨rfl, rfl, rfl, rfl, rfl⟩

theorem prune_tok (c : Corpus) (text : String) : c.prune.tok text = c.tok text := by
  obtain ⟨-, h1, h2, -, -⟩ := prune_frame c
  simp [tok, h1, h2]

/-- `Prune` is idempotent on the nose: the second call always takes the
early return. -/
theorem prune_prune (c : Corpus) : c.prune.prune = c.prune := by
  by_cases h : c.hasPruned = true ∨ c.documents = 0 ∨ c.pruneHooks.length = 0
  · rw [prune_noop c h, prune_noop c h]
  · rw [prune_run c h]
    exact prune_noop _ (Or.inl rfl)

end Corpus

/-! ## The invariant holds in every reachable state -/

theorem applyOpts_state (opts : List COption) (h : ∀ o ∈ opts, IsOption o) :
    ∀ c : Corpus,
      (opts.foldl (fun c o => o c) c).termFreq = c.termFreq ∧
      (opts.foldl (fun c o => o c) c).termIndex = c.termIndex ∧
      (opts.foldl (fun c o => o c) c).documents = c.documents ∧
      (opts.foldl (fun c o => o c) c).hasPruned = c.hasPruned := by
  induction opts with
  | nil => intro c; exact ⟨rfl, rfl, rfl, rfl⟩
  | cons o os ih =>
    intro c
    have ho : IsOption o := h o (List.mem_cons_self o os)
    have hos : ∀ o' ∈ os, IsOption o' := fun o' ho' => h o' (List.mem_cons_of_mem o ho')
    have step : (o c).termFreq = c.termFreq ∧ (o c).termIndex = c.termIndex ∧
        (o c).documents = c.documents ∧ (o c).hasPruned = c.hasPruned := by
      cases ho <;> exact ⟨rfl, rfl, rfl, rfl⟩
    obtain ⟨s1, s2, s3, s4⟩ := step
    obtain ⟨i1, i2, i3, i4⟩ := ih hos (o c)
    exact ⟨by rw [List.foldl_cons, i1, s1], by rw [List.foldl_cons, i2, s2],
      by rw [List.foldl_cons, i3, s3], by rw [List.foldl_cons, i4, s4]⟩

theorem new_state (tok0 : String → List String) (opts : List COption)
    (h : ∀ o ∈ opts, IsOption o) :
    (new tok0 opts).termFreq = [] ∧ (new tok0 opts).termIndex = [] ∧
    (new tok0 opts).documents = 0 ∧ (new tok0 opts).hasPruned = false :=
  applyOpts_state opts h _

theorem inv_empty (c : Corpus) (h1 : c.termFreq = []) (h2 : c.termIndex = []) :
    Inv c := by
  refine ⟨?_, ?_, ?_, ?_⟩ <;> simp [h1, h2, mapKeys]

theorem inv_new (tok0 : String → List String) (opts : List COption)
    (h : ∀ o ∈ opts, IsOption o) : Inv (new tok0 opts) :=
  inv_empty _ (new_state tok0 opts h).1 (new_state tok0 opts h).2.1

theorem inv_indexDocument (c : Corpus) (text : String) (hc : Inv c) :
    Inv (c.indexDocument text) := by
  obtain ⟨h1, h2, h3, h4, h5⟩ :=
    Corpus.indexLoop_spec (c.tok text) [] c.termFreq c.termIndex
  refine ⟨?_, ?_, ?_, ?_⟩
  · simpa [Corpus.indexDocument] using h5 hc.sorted
  · simpa [Corpus.indexDocument] using h4 hc.keysNodup
  · intro t
    have ha := h3 t
    have hb := h2 t
    simp only [Corpus.indexDocument] at *
    rw [ha, hb, hc.sync t]
  · intro t ht
    have hget := c.indexDocument_termFreq text t
    have hdoc := c.indexDocument_documents text
    have hb := h2 t
    simp only [Corpus.indexDocument] at hb ht
    rw [hb] at ht
    rw [hget, hdoc]
    by_cases hk : t ∈ mapKeys c.termFreq
    · obtain ⟨hb1, hb2⟩ := hc.bounds t hk
      by_cases hm : t ∈ c.tok text <;> simp [hm] <;> omega
    · have hz : mapGet c.termFreq t = 0 := mapGet_eq_zero_of_not_mem _ _ hk
      have hm : t ∈ c.tok text := by
        rcases ht with ht | ht
        · exact absurd ht hk
        · exact ht.1
      simp [hz, hm]

theorem inv_prune (c : Corpus) (hc : Inv c) : Inv c.prune := by
  by_cases h : c.hasPruned = true ∨ c.documents = 0 ∨ c.pruneHooks.length = 0
  · rwa [Corpus.prune_noop c h]
  · rw [Corpus.prune_run c h]
    have hnd : c.termIndex.Nodup := hc.sorted.nodup
    refine ⟨?_, ?_, ?_, ?_⟩
    · exact sorted_massRemove _ _ hc.sorted
    · exact nodup_mapKeys_massDel _ _ hc.keysNodup
    · intro t
      show t ∈ massRemove c.termIndex c.removedTerms ↔
        t ∈ mapKeys (massDel c.termFreq c.removedTerms)
      rw [mem_massRemove _ _ _ hnd, mem_mapKeys_massDel, hc.sync t]
    · intro t ht
      show 1 ≤ mapGet (massDel c.termFreq c.removedTerms) t ∧
        mapGet (massDel c.termFreq c.removedTerms) t ≤ c.documents
      rw [mem_mapKeys_massDel] at ht
      rw [mapGet_massDel, if_neg ht.2]
      exact hc.bounds t ht.1

theorem inv_reset (c : Corpus) : Inv c.reset :=
  inv_empty _ rfl rfl

/-- Every reachable corpus state satisfies the invariant. -/
theorem inv_of_reachable (c : Corpus) (h : Reachable c) : Inv c := by
  induction h with
  | new tok0 opts hopts => exact inv_new tok0 opts hopts
  | index c text _ ih => exact inv_indexDocument c text ih
  | prune c _ ih => exact inv_prune c ih
  | reset c _ _ => exact inv_reset c

/-! ## Evaluation lemmas for the float model -/

namespace Fl

theorem div_fin_of_ne (x y : ℝ) (hy : y ≠ 0) : div (fin x) (fin y) = fin (x / y) := by
  simp [div, hy]

theorem div_zero_zero : div (fin 0) (fin 0) = nan := by
  simp [div]

theorem mul_fin_fin (x y : ℝ) : mul (fin x) (fin y) = fin (x * y) := rfl

theorem mul_nan_left (a : Fl) : mul nan a = nan := by
  cases a <;> rfl

theorem add_fin_fin (x y : ℝ) : add (fin x) (fin y) = fin (x + y) := rfl

theorem add_fin_nan (x : ℝ) : add (fin x) nan = nan := rfl

theorem log_fin_of_pos (x : ℝ) (hx : 0 < x) : log (fin x) = fin (Real.log x) := by
  simp [log, hx]

theorem sqrt_fin_of_nonneg (x : ℝ) (hx : 0 ≤ x) : sqrt (fin x) = fin (Real.sqrt x) := by
  simp [sqrt, hx]

theorem sqrt_nan : sqrt nan = nan := rfl

theorem gtZero_fin (x : ℝ) : gtZero (fin x) ↔ 0 < x := Iff.rfl

theorem not_gtZero_nan : ¬gtZero nan := fun h => h

theorem fin_injective (x y : ℝ) (h : fin x = fin y) : x = y := by
  injection h

theorem nan_ne_fin (x : ℝ) : nan ≠ fin x := by
  intro h
  exact Fl.noConfusion h

end Fl

/-! ## The local frequency table of `CreateVector` -/

theorem sumVals_mapIncr (m : List (String × ℕ)) (t : String) :
    ((mapIncr m t).map Prod.snd).sum = (m.map Prod.snd).sum + 1 := by
  induction m with
  | nil => simp [mapIncr]
  | cons kv rest ih =>
    obtain ⟨k, v⟩ := kv
    by_cases hk : t = k
    · subst hk
      simp [mapIncr]
      omega
    · simp [mapIncr, hk, ih]
      omega

/-- The scratch counter counts every occurrence: its lookup is the
occurrence count of the term in the token stream. -/
theorem mapGet_countTokens (tokens : List String) (s : String) :
    mapGet (countTokens tokens) s = tokens.count s := by
  suffices h : ∀ m, mapGet (tokens.foldl mapIncr m) s = mapGet m s + tokens.count s by
    simpa [countTokens, mapGet] using h []
  induction tokens with
  | nil => intro m; simp
  | cons t ts ih =>
    intro m
    rw [List.foldl_cons, ih (mapIncr m t), mapGet_incr]
    by_cases hst : s = t
    · subst hst
      simp [List.count_cons]
      omega
    · have h2 : ¬t = s := fun h => hst (h ▸ rfl)
      simp [List.count_cons, hst, h2]

/-- `totalTerms` (the number of tokens counted) equals the sum of all
counts in the scratch table. -/
theorem sumVals_countTokens (tokens : List String) :
    ((countTokens tokens).map Prod.snd).sum = tokens.length := by
  suffices h : ∀ m, (((tokens.foldl mapIncr m).map Prod.snd).sum) =
      (m.map Prod.snd).sum + tokens.length by
    simpa [countTokens] using h []
  induction tokens with
  | nil => intro m; simp
  | cons t ts ih =>
    intro m
    rw [List.foldl_cons, ih (mapIncr m t), sumVals_mapIncr]
    simp only [List.length_cons]
    omega

/-! ## Evaluating the vector on states satisfying the invariant -/

/-- The spec's per-term score, as a real number: `tf * idf` with
`tf = localFreq[term] / totalTerms` (`0` if the term is absent from the
query) and `idf = ln(documentCount / documentFrequency[term]) + 1`. -/
noncomputable def specTfIdf (c : Corpus) (text term : String) : ℝ :=
  (((c.tok text).count term : ℝ) / ((c.tok text).length : ℝ)) *
    (Real.log ((c.documents : ℝ) / (mapGet c.termFreq term : ℝ)) + 1)

namespace Corpus

theorem idfEntry_eval (c : Corpus) (term : String)
    (h1 : 1 ≤ mapGet c.termFreq term) (h2 : mapGet c.termFreq term ≤ c.documents) :
    c.idfEntry term =
      Fl.fin (Real.log ((c.documents : ℝ) / (mapGet c.termFreq term : ℝ)) + 1) ∧
    1 ≤ Real.log ((c.documents : ℝ) / (mapGet c.termFreq term : ℝ)) + 1 := by
  have hf : (0 : ℝ) < (mapGet c.termFreq term : ℝ) := by exact_mod_cast h1
  have hd : (0 : ℝ) < (c.documents : ℝ) :=
    lt_of_lt_of_le hf (by exact_mod_cast h2)
  have hq : (0 : ℝ) < (c.documents : ℝ) / (mapGet c.termFreq term : ℝ) := div_pos hd hf
  have h1q : (1 : ℝ) ≤ (c.documents : ℝ) / (mapGet c.termFreq term : ℝ) :=
    (one_le_div hf).mpr (by exact_mod_cast h2)
  refine ⟨?_, ?_⟩
  · unfold idfEntry
    rw [Fl.div_fin_of_ne _ _ (ne_of_gt hf), Fl.log_fin_of_pos _ hq, Fl.add_fin_fin]
  · linarith [Real.log_nonneg h1q]

theorem tfidfEntry_eval (c : Corpus) (hInv : Inv c) (text : String)
    (htok : c.tok text ≠ []) (term : String) (hterm : term ∈ c.termIndex) :
    c.tfidfEntry (countTokens (c.tok text)) (c.tok text).length term =
      Fl.fin (specTfIdf c text term) := by
  have hk : term ∈ mapKeys c.termFreq := (hInv.sync term).mp hterm
  obtain ⟨hb1, hb2⟩ := hInv.bounds term hk
  have hlen : (0 : ℝ) < ((c.tok text).length : ℝ) := by
    have := List.length_pos.mpr htok
    exact_mod_cast this
  unfold tfidfEntry specTfIdf
  rw [mapGet_countTokens, (c.idfEntry_eval term hb1 hb2).1,
    Fl.div_fin_of_ne _ _ (ne_of_gt hlen), Fl.mul_fin_fin]

/-- On an invariant-satisfying state with a nonempty token stream, the
unnormalized vector is exactly the spec formula at the first
`min(|termIndex|, maxVectorSize)` index terms. -/
theorem rawVector_eval (c : Corpus) (hInv : Inv c) (text : String)
    (htok : c.tok text ≠ []) :
    c.rawVector text = (c.termIndex.take c.vecLen.toNat).map
      (fun term => Fl.fin (specTfIdf c text term)) := by
  unfold rawVector
  apply List.map_congr_left
  intro term hmem
  exact c.tfidfEntry_eval hInv text htok term (List.take_subset _ _ hmem)

theorem specTfIdf_nonneg (c : Corpus) (hInv : Inv c) (text term : String)
    (hterm : term ∈ c.termIndex) : 0 ≤ specTfIdf c text term := by
  have hk : term ∈ mapKeys c.termFreq := (hInv.sync term).mp hterm
  obtain ⟨hb1, hb2⟩ := hInv.bounds term hk
  have hf : (0 : ℝ) < (mapGet c.termFreq term : ℝ) := by exact_mod_cast hb1
  have h1q : (1 : ℝ) ≤ (c.documents : ℝ) / (mapGet c.termFreq term : ℝ) :=
    (one_le_div hf).mpr (by exact_mod_cast hb2)
  have hidf : (0 : ℝ) ≤ Real.log ((c.documents : ℝ) / (mapGet c.termFreq term : ℝ)) + 1 := by
    linarith [Real.log_nonneg h1q]
  have htf : (0 : ℝ) ≤ ((c.tok text).count term : ℝ) / ((c.tok text).length : ℝ) := by
    positivity
  exact mul_nonneg htf hidf

theorem specTfIdf_eq_zero_iff (c : Corpus) (hInv : Inv c) (text term : String)
    (htok : c.tok text ≠ []) (hterm : term ∈ c.termIndex) :
    specTfIdf c text term = 0 ↔ term ∉ c.tok text := by
  have hk : term ∈ mapKeys c.termFreq := (hInv.sync term).mp hterm
  obtain ⟨hb1, hb2⟩ := hInv.bounds term hk
  have hf : (0 : ℝ) < (mapGet c.termFreq term : ℝ) := by exact_mod_cast hb1
  have h1q : (1 : ℝ) ≤ (c.documents : ℝ) / (mapGet c.termFreq term : ℝ) :=
    (one_le_div hf).mpr (by exact_mod_cast hb2)
  have hidf : (0 : ℝ) < Real.log ((c.documents : ℝ) / (mapGet c.termFreq term : ℝ)) + 1 := by
    linarith [Real.log_nonneg h1q]
  have hlen : (0 : ℝ) < ((c.tok text).length : ℝ) := by
    have := List.length_pos.mpr htok
    exact_mod_cast this
  unfold specTfIdf
  rw [mul_eq_zero]
  constructor
  · rintro (h | h)
    · rw [div_eq_zero_iff] at h
      rcases h with h | h
      · have : (c.tok text).count term = 0 := by exact_mod_cast h
        exact List.count_eq_zero.mp this
      · exact absurd h (ne_of_gt hlen)
    · exact absurd h (ne_of_gt hidf)
  · intro h
    left
    have : (c.tok text).count term = 0 := List.count_eq_zero.mpr h
    rw [this]
    simp

end Corpus

/-! ## Normalization over finite vectors -/

theorem sumSquares_map_fin (rs : List ℝ) :
    sumSquares (rs.map Fl.fin) = Fl.fin ((rs.map (fun r => r * r)).sum) := by
  suffices h : ∀ a : ℝ,
      (rs.map Fl.fin).foldl (fun acc x => Fl.add acc (Fl.mul x x)) (Fl.fin a)
        = Fl.fin (a + (rs.map (fun r => r * r)).sum) by
    simpa [sumSquares] using h 0
  induction rs with
  | nil => intro a; simp
  | cons r rest ih =>
    intro a
    simp only [List.map_cons, List.foldl_cons, Fl.mul_fin_fin, Fl.add_fin_fin, List.sum_cons]
    rw [ih (a + r * r)]
    congr 1
    ring

theorem squares_sum_nonneg (rs : List ℝ) : 0 ≤ (rs.map (fun r => r * r)).sum := by
  apply List.sum_nonneg
  intro x hx
  obtain ⟨r, -, rfl⟩ := List.mem_map.mp hx
  exact mul_self_nonneg r

theorem euclideanNorm_map_fin (rs : List ℝ) :
    euclideanNorm (rs.map Fl.fin) =
      Fl.fin (Real.sqrt ((rs.map (fun r => r * r)).sum)) := by
  unfold euclideanNorm
  rw [sumSquares_map_fin, Fl.sqrt_fin_of_nonneg _ (squares_sum_nonneg rs)]

theorem normalizeVec_of_sum_zero (rs : List ℝ)
    (h : (rs.map (fun r => r * r)).sum = 0) :
    normalizeVec (rs.map Fl.fin) = rs.map Fl.fin := by
  unfold normalizeVec
  rw [euclideanNorm_map_fin, h, Real.sqrt_zero]
  rw [if_neg]
  simp [Fl.gtZero]

theorem normalizeVec_of_sum_pos (rs : List ℝ)
    (h : 0 < (rs.map (fun r => r * r)).sum) :
    normalizeVec (rs.map Fl.fin) =
      rs.map (fun r => Fl.fin (r / Real.sqrt ((rs.map (fun r => r * r)).sum))) := by
  have hm : 0 < Real.sqrt ((rs.map (fun r => r * r)).sum) := Real.sqrt_pos.mpr h
  unfold normalizeVec
  rw [euclideanNorm_map_fin, if_pos (by exact hm)]
  rw [List.map_map]
  apply List.map_congr_left
  intro r _
  exact Fl.div_fin_of_ne _ _ (ne_of_gt hm)

theorem euclideanNorm_normalized (rs : List ℝ)
    (h : 0 < (rs.map (fun r => r * r)).sum) :
    euclideanNorm (rs.map (fun r =>
      Fl.fin (r / Real.sqrt ((rs.map (fun r => r * r)).sum)))) = Fl.fin 1 := by
  set S := (rs.map (fun r => r * r)).sum with hS
  have hm : 0 < Real.sqrt S := Real.sqrt_pos.mpr h
  have hmap : rs.map (fun r => Fl.fin (r / Real.sqrt S))
      = (rs.map (fun r => r / Real.sqrt S)).map Fl.fin := by
    rw [List.map_map]
    rfl
  rw [hmap, euclideanNorm_map_fin]
  have hsq : ((rs.map (fun r => r / Real.sqrt S)).map (fun r => r * r)).sum = 1 := by
    rw [List.map_map]
    have hcomp : ((fun r => r * r) ∘ fun r => r / Real.sqrt S)
        = fun r => (r * r) * (Real.sqrt S * Real.sqrt S)⁻¹ := by
      funext r
      simp only [Function.comp, div_eq_mul_inv, mul_inv]
      ring
    rw [hcomp]
    have hmulr : (rs.map (fun r => (r * r) * (Real.sqrt S * Real.sqrt S)⁻¹)).sum
        = (rs.map (fun r => r * r)).sum * (Real.sqrt S * Real.sqrt S)⁻¹ := by
      rw [← List.sum_map_mul_right]
    rw [hmulr, Real.mul_self_sqrt (le_of_lt h), ← hS]
    field_simp
  rw [hsq, Real.sqrt_one]

theorem normalizeVec_length (v : List Fl) : (normalizeVec v).length = v.length := by
  unfold normalizeVec
  split <;> simp

namespace Corpus

theorem rawVector_length (c : Corpus) (text : String) :
    (c.rawVector text).length = min c.vecLen.toNat c.termIndex.length := by
  unfold rawVector
  simp [List.length_take]

/-- When `CreateVector` does not panic, its result is the normalized
tf-idf vector of the pruned state. -/
theorem createVector_some (c : Corpus) (text : String) (v : List Fl)
    (h : c.createVector text = some v) :
    0 ≤ c.prune.vecLen ∧ v = normalizeVec (c.prune.rawVector text) := by
  unfold createVector at h
  by_cases hlt : c.prune.vecLen < 0
  · rw [if_pos hlt] at h
    exact absurd h (by simp)
  · rw [if_neg hlt] at h
    exact ⟨not_lt.mp hlt, (Option.some.injEq _ _ ▸ h).symm⟩

theorem createVector_eq (c : Corpus) (text : String) (h : 0 ≤ c.prune.vecLen) :
    c.createVector text = some (normalizeVec (c.prune.rawVector text)) := by
  unfold createVector
  rw [if_neg (not_lt.mpr h)]

theorem createVector_length (c : Corpus) (text : String) (v : List Fl)
    (h : c.createVector text = some v) :
    (v.length : ℤ) = min ((c.prune.termIndex.length : ℤ)) c.maxVectorSize := by
  obtain ⟨h0, hv⟩ := c.createVector_some text v h
  have hmax : c.prune.maxVectorSize = c.maxVectorSize := (prune_frame c).1
  have hle : c.prune.vecLen ≤ (c.prune.termIndex.length : ℤ) := min_le_left _ _
  have htn : c.prune.vecLen.toNat ≤ c.prune.termIndex.length := by omega
  rw [hv, normalizeVec_length, rawVector_length, min_eq_left htn,
    Int.toNat_of_nonneg h0]
  unfold vecLen
  rw [hmax]

end Corpus

/-! ## Concrete corpora for witnesses and counterexamples -/

/-- A trivial injectable tokenizer: the whole text is one term (nothing
for the empty text) — a legitimate `WithTokenizer` argument. -/
def tokOne : String → List String :=
  fun s => if s = "" then [] else [s]

/-- A fresh corpus with the trivial tokenizer and no other options. -/
def corpusE : Corpus :=
  new tokOne []

/-- `corpusE` after indexing the single document `"a"`. -/
def corpusA : Corpus :=
  corpusE.indexDocument "a"

/-- A prune hook removing nothing. -/
def hookNil : PruneHook :=
  fun _ _ => []

/-- A corpus with one (trivial) prune hook, one document indexed, then
pruned — so its `hasPruned` flag is set. -/
def corpusC : Corpus :=
  ((new tokOne [withPruneHooks [hookNil]]).indexDocument "a").prune

/-- A corpus constructed with a negative max vector size. -/
def corpusB : Corpus :=
  new tokOne [withMaxVectorSize (-5)]

theorem reachable_corpusE : Reachable corpusE :=
  Reachable.new tokOne [] (fun o ho => absurd ho (List.not_mem_nil o))

theorem reachable_corpusA : Reachable corpusA :=
  Reachable.index corpusE "a" reachable_corpusE

theorem corpusA_prune : corpusA.prune = corpusA :=
  Corpus.prune_noop corpusA (Or.inr (Or.inr rfl))

theorem corpusE_prune : corpusE.prune = corpusE :=
  Corpus.prune_noop corpusE (Or.inr (Or.inr rfl))

theorem corpusA_termIndex : corpusA.termIndex = ["a"] := rfl

theorem corpusA_tok_empty : corpusA.tok "" = [] := rfl

theorem corpusA_tok_a : corpusA.tok "a" = ["a"] := rfl

theorem corpusA_entry_nan : corpusA.tfidfEntry [] 0 "a" = Fl.nan := by
  unfold Corpus.tfidfEntry
  norm_num [mapGet, Fl.div_zero_zero, Fl.mul_nan_left]

theorem corpusA_raw_empty : corpusA.rawVector "" = [Fl.nan] := by
  unfold Corpus.rawVector
  rw [corpusA_tok_empty]
  rw [show corpusA.termIndex = ["a"] from rfl, show corpusA.vecLen.toNat = 1 from rfl]
  simp only [List.take_succ_cons, List.take_nil, List.map_cons, List.map_nil,
    List.length_nil]
  rw [show countTokens [] = [] from rfl, corpusA_entry_nan]

theorem euclideanNorm_nan : euclideanNorm [Fl.nan] = Fl.nan := by
  unfold euclideanNorm sumSquares
  rw [show ([Fl.nan].foldl (fun acc x => Fl.add acc (Fl.mul x x)) (Fl.fin 0)) =
    Fl.add (Fl.fin 0) (Fl.mul Fl.nan Fl.nan) from rfl]
  rw [Fl.mul_nan_left, Fl.add_fin_nan, Fl.sqrt_nan]

theorem normalizeVec_nan : normalizeVec [Fl.nan] = [Fl.nan] := by
  unfold normalizeVec
  rw [euclideanNorm_nan, if_neg Fl.not_gtZero_nan]

/-- Evaluating the code on the `totalTerms == 0` input: the vector of
the one-document corpus at the empty text is `[NaN]`. -/
theorem corpusA_createVector_empty : corpusA.createVector "" = some [Fl.nan] := by
  unfold Corpus.createVector
  rw [corpusA_prune]
  show (if corpusA.vecLen < 0 then none
    else some (normalizeVec (corpusA.rawVector ""))) = some [Fl.nan]
  rw [if_neg (by decide : ¬corpusA.vecLen < 0), corpusA_raw_empty, normalizeVec_nan]

theorem normalizeVec_nil : normalizeVec [] = [] := by
  unfold normalizeVec
  split <;> simp

theorem corpusE_createVector : corpusE.createVector "" = some [] := by
  unfold Corpus.createVector
  rw [corpusE_prune]
  show (if corpusE.vecLen < 0 then none
    else some (normalizeVec (corpusE.rawVector ""))) = some []
  rw [if_neg (by decide : ¬corpusE.vecLen < 0)]
  have hraw : corpusE.rawVector "" = [] := by
    unfold Corpus.rawVector
    rw [show corpusE.termIndex = [] from rfl]
    simp
  rw [hraw, normalizeVec_nil]

theorem corpusA_entry_a : corpusA.tfidfEntry (countTokens ["a"]) 1 "a" = Fl.fin 1 := by
  unfold Corpus.tfidfEntry Corpus.idfEntry
  rw [show mapGet (countTokens ["a"]) "a" = 1 from rfl,
    show mapGet corpusA.termFreq "a" = 1 from rfl,
    show corpusA.documents = 1 from rfl]
  rw [Fl.div_fin_of_ne _ _ (by norm_num)]
  norm_num
  rw [Fl.log_fin_of_pos _ (by norm_num), Real.log_one, Fl.add_fin_fin, Fl.mul_fin_fin]
  norm_num

theorem corpusA_raw_a : corpusA.rawVector "a" = [Fl.fin 1] := by
  unfold Corpus.rawVector
  rw [corpusA_tok_a]
  rw [show corpusA.termIndex = ["a"] from rfl, show corpusA.vecLen.toNat = 1 from rfl]
  simp only [List.take_succ_cons, List.take_nil, List.map_cons, List.map_nil,
    List.length_cons, List.length_nil]
  rw [corpusA_entry_a]

theorem normalizeVec_one : normalizeVec [Fl.fin 1] = [Fl.fin 1] := by
  have h : ([Fl.fin 1] : List Fl) = ([1] : List ℝ).map Fl.fin := rfl
  rw [h, normalizeVec_of_sum_pos [1] (by norm_num)]
  norm_num [Real.sqrt_one]

theorem corpusA_createVector_a : corpusA.createVector "a" = some [Fl.fin 1] := by
  unfold Corpus.createVector
  rw [corpusA_prune]
  show (if corpusA.vecLen < 0 then none
    else some (normalizeVec (corpusA.rawVector "a"))) = some [Fl.fin 1]
  rw [if_neg (by decide : ¬corpusA.vecLen < 0), corpusA_raw_a, normalizeVec_one]

theorem corpusB_prune : corpusB.prune = corpusB :=
  Corpus.prune_noop corpusB (Or.inr (Or.inl rfl))

theorem corpusB_createVector : corpusB.createVector "" = none := by
  unfold Corpus.createVector
  rw [corpusB_prune]
  show (if corpusB.vecLen < 0 then none
    else some (normalizeVec (corpusB.rawVector ""))) = none
  rw [if_pos (by decide : corpusB.vecLen < 0)]

/-! ## The claims -/

/-- C1: the claim says that with `totalTerms == 0` the code defines
`tf = 0` and returns an all-zero vector.  The code has no such guard:
`float32(0)/float32(0)` is IEEE `NaN`, so on a corpus with one indexed
document the empty-token text yields the vector `[NaN]`, which is not
all-zero.  This theorem evaluates the code at that failing input. -/
theorem c1_totalTerms_zero_yields_nan :
    corpusA.tok "" = [] ∧
    corpusA.createVector "" = some [Fl.nan] ∧
    ¬allZero [Fl.nan] := by
  refine ⟨corpusA_tok_empty, corpusA_createVector_empty, ?_⟩
  intro h
  exact Fl.nan_ne_fin 0 (h Fl.nan (List.mem_singleton.mpr rfl))

/-- C2: the claim says a non-positive max vector size is normalized to a
safe default and no public operation panics.  `WithMaxVectorSize` stores
the size unchanged, and with a negative size `CreateVector` executes
`make([]float32, min(0, size))` with a negative length — a runtime
panic, modelled as `none`.  This theorem evaluates the code at that
failing input. -/
theorem c2_negative_size_not_normalized :
    corpusB.maxVectorSize = -5 ∧ corpusB.createVector "" = none :=
  ⟨rfl, corpusB_createVector⟩

/-- C7: `IndexDocument` bumps the document frequency by exactly 1 for
each distinct term of the tokenized/filtered text (at most 1 per call),
inserts new terms into the sorted index, increments the document count,
clears `hasPruned`; a text with no terms leaves the frequency map and
the index unchanged. -/
theorem c7_indexDocument_effects (c : Corpus) (hc : Reachable c) (text : String) :
    (∀ t, mapGet (c.indexDocument text).termFreq t =
        mapGet c.termFreq t + (if t ∈ c.tok text then 1 else 0)) ∧
    (∀ t, t ∈ (c.indexDocument text).termIndex ↔ t ∈ c.termIndex ∨ t ∈ c.tok text) ∧
    (c.indexDocument text).termIndex.Sorted (· < ·) ∧
    (c.indexDocument text).documents = c.documents + 1 ∧
    (c.indexDocument text).hasPruned = false ∧
    (c.tok text = [] →
      (c.indexDocument text).termFreq = c.termFreq ∧
      (c.indexDocument text).termIndex = c.termIndex) :=
  ⟨c.indexDocument_termFreq text, c.indexDocument_termIndex_mem text,
    (inv_indexDocument c text (inv_of_reachable c hc)).sorted, rfl, rfl,
    c.indexDocument_empty text⟩

theorem c7_indexDocument_effects_witness :
    Reachable corpusE ∧
    ((∀ t, mapGet (corpusE.indexDocument "a").termFreq t =
        mapGet corpusE.termFreq t + (if t ∈ corpusE.tok "a" then 1 else 0)) ∧
    (∀ t, t ∈ (corpusE.indexDocument "a").termIndex ↔
        t ∈ corpusE.termIndex ∨ t ∈ corpusE.tok "a") ∧
    (corpusE.indexDocument "a").termIndex.Sorted (· < ·) ∧
    (corpusE.indexDocument "a").documents = corpusE.documents + 1 ∧
    (corpusE.indexDocument "a").hasPruned = false ∧
    (corpusE.tok "a" = [] →
      (corpusE.indexDocument "a").termFreq = corpusE.termFreq ∧
      (corpusE.indexDocument "a").termIndex = corpusE.termIndex)) :=
  ⟨reachable_corpusE, c7_indexDocument_effects corpusE reachable_corpusE "a"⟩

/-- C8 (counterexample): the claim says `Reset` restores the dirty flag
to its initial value.  The initial `hasPruned` is `false`, but `Reset`
does not touch the flag: on a pruned corpus it stays `true` after
`Reset`. -/
theorem c8_reset_keeps_flag_cex :
    corpusC.reset.hasPruned = true ∧ (new tokOne []).hasPruned = false :=
  ⟨rfl, rfl⟩

/-- C8 (amended): `Reset` clears the frequency map, the term index and
the document count, and leaves the configuration and the `hasPruned`
flag unchanged; the stale flag is unobservable because pruning a freshly
reset corpus is a no-op anyway. -/
theorem c8_reset_clears_state (c : Corpus) :
    c.reset.termFreq = [] ∧ c.reset.termIndex = [] ∧ c.reset.documents = 0 ∧
    c.reset.maxVectorSize = c.maxVectorSize ∧ c.reset.tokenizer = c.tokenizer ∧
    c.reset.termFilters = c.termFilters ∧ c.reset.pruneHooks = c.pruneHooks ∧
    c.reset.hasPruned = c.hasPruned ∧ c.reset.prune = c.reset :=
  ⟨rfl, rfl, rfl, rfl, rfl, rfl, rfl, rfl,
    Corpus.prune_noop c.reset (Or.inr (Or.inl rfl))⟩

/-- C9: in every reachable state the term index holds exactly the keys
of the document-frequency map, without duplicates and sorted. -/
theorem c9_termIndex_sorted_keyset (c : Corpus) (hc : Reachable c) :
    (∀ t, t ∈ c.termIndex ↔ t ∈ mapKeys c.termFreq) ∧
    c.termIndex.Nodup ∧ c.termIndex.Sorted (· < ·) :=
  (fun hInv => ⟨hInv.sync, hInv.sorted.nodup, hInv.sorted⟩) (inv_of_reachable c hc)

theorem c9_termIndex_sorted_keyset_witness :
    Reachable corpusA ∧
    ((∀ t, t ∈ corpusA.termIndex ↔ t ∈ mapKeys corpusA.termFreq) ∧
    corpusA.termIndex.Nodup ∧ corpusA.termIndex.Sorted (· < ·)) :=
  ⟨reachable_corpusA, c9_termIndex_sorted_keyset corpusA reachable_corpusA⟩

/-- C10: in every reachable state, every vocabulary term has a document
frequency between 1 and the document count, so the idf factor evaluates
to a finite real that is at least 1. -/
theorem c10_df_bounds_idf (c : Corpus) (hc : Reachable c) (t : String)
    (ht : t ∈ c.termIndex) :
    1 ≤ mapGet c.termFreq t ∧ mapGet c.termFreq t ≤ c.documents ∧
    c.idfEntry t =
      Fl.fin (Real.log ((c.documents : ℝ) / (mapGet c.termFreq t : ℝ)) + 1) ∧
    1 ≤ Real.log ((c.documents : ℝ) / (mapGet c.termFreq t : ℝ)) + 1 := by
  have hInv := inv_of_reachable c hc
  obtain ⟨h1, h2⟩ := hInv.bounds t ((hInv.sync t).mp ht)
  obtain ⟨h3, h4⟩ := c.idfEntry_eval t h1 h2
  exact ⟨h1, h2, h3, h4⟩

theorem c10_df_bounds_idf_witness :
    Reachable corpusA ∧ "a" ∈ corpusA.termIndex ∧
    (1 ≤ mapGet corpusA.termFreq "a" ∧ mapGet corpusA.termFreq "a" ≤ corpusA.documents ∧
    corpusA.idfEntry "a" =
      Fl.fin (Real.log ((corpusA.documents : ℝ) / (mapGet corpusA.termFreq "a" : ℝ)) + 1) ∧
    1 ≤ Real.log ((corpusA.documents : ℝ) / (mapGet corpusA.termFreq "a" : ℝ)) + 1) :=
  have ht : "a" ∈ corpusA.termIndex := by
    rw [corpusA_termIndex]
    exact List.mem_singleton.mpr rfl
  ⟨reachable_corpusA, ht, c10_df_bounds_idf corpusA reachable_corpusA "a" ht⟩

/-- C4: `Prune` is a no-op when the flag is set, no documents are
indexed or no hooks are configured; twice pruning leaves the frequency
snapshot unchanged; otherwise every hook sees the entry snapshot (via
`removedTerms`, which applies each hook to the state at entry) and every
returned term is deleted from both structures, with the flag set. -/
theorem c4_prune_contract (c : Corpus) (hc : Reachable c) :
    ((c.hasPruned = true ∨ c.documents = 0 ∨ c.pruneHooks.length = 0) → c.prune = c) ∧
    c.prune.prune.getTermFrequency = c.prune.getTermFrequency ∧
    (¬(c.hasPruned = true ∨ c.documents = 0 ∨ c.pruneHooks.length = 0) →
      c.prune.termFreq = massDel c.termFreq c.removedTerms ∧
      c.prune.termIndex = massRemove c.termIndex c.removedTerms ∧
      c.prune.hasPruned = true ∧
      ∀ t ∈ c.removedTerms, t ∉ mapKeys c.prune.termFreq ∧ t ∉ c.prune.termIndex) := by
  have hInv := inv_of_reachable c hc
  refine ⟨Corpus.prune_noop c, by rw [Corpus.prune_prune], ?_⟩
  intro h
  have hrun := Corpus.prune_run c h
  refine ⟨by rw [hrun], by rw [hrun], by rw [hrun], ?_⟩
  intro t ht
  rw [hrun]
  constructor
  · show t ∉ mapKeys (massDel c.termFreq c.removedTerms)
    rw [mem_mapKeys_massDel]
    rintro ⟨-, h2⟩
    exact h2 ht
  · show t ∉ massRemove c.termIndex c.removedTerms
    rw [mem_massRemove _ _ _ hInv.sorted.nodup]
    rintro ⟨-, h2⟩
    exact h2 ht

theorem c4_prune_contract_witness :
    Reachable corpusA ∧
    (((corpusA.hasPruned = true ∨ corpusA.documents = 0 ∨
        corpusA.pruneHooks.length = 0) → corpusA.prune = corpusA) ∧
    corpusA.prune.prune.getTermFrequency = corpusA.prune.getTermFrequency ∧
    (¬(corpusA.hasPruned = true ∨ corpusA.documents = 0 ∨
        corpusA.pruneHooks.length = 0) →
      corpusA.prune.termFreq = massDel corpusA.termFreq corpusA.removedTerms ∧
      corpusA.prune.termIndex = massRemove corpusA.termIndex corpusA.removedTerms ∧
      corpusA.prune.hasPruned = true ∧
      ∀ t ∈ corpusA.removedTerms,
        t ∉ mapKeys corpusA.prune.termFreq ∧ t ∉ corpusA.prune.termIndex)) :=
  ⟨reachable_corpusA, c4_prune_contract corpusA reachable_corpusA⟩

/-- C5: a returned vector has length `min(|pruned vocabulary|,
maxVectorSize)` — in particular never more than `maxVectorSize` — and
the padded variant extends it with zeros to exactly `maxVectorSize`. -/
theorem c5_vector_lengths (c : Corpus) (text : String) (v : List Fl)
    (h : c.createVector text = some v) :
    (v.length : ℤ) = min ((c.prune.termIndex.length : ℤ)) c.maxVectorSize ∧
    (v.length : ℤ) ≤ c.maxVectorSize ∧
    ∀ w, c.createPaddedVector text = some w →
      (w.length : ℤ) = c.maxVectorSize ∧
      w = v ++ List.replicate (c.maxVectorSize - (v.length : ℤ)).toNat (Fl.fin 0) := by
  have hlen := c.createVector_length text v h
  have hle : (v.length : ℤ) ≤ c.maxVectorSize := by
    rw [hlen]
    exact min_le_right _ _
  refine ⟨hlen, hle, ?_⟩
  intro w hw
  unfold Corpus.createPaddedVector at hw
  rw [h] at hw
  simp only [Option.map_some'] at hw
  by_cases hlt : ((v.length : ℤ) < c.maxVectorSize)
  · rw [if_pos hlt] at hw
    obtain rfl := Option.some_injective _ hw
    have hnn : 0 ≤ c.maxVectorSize - (v.length : ℤ) := by omega
    constructor
    · rw [List.length_append, List.length_replicate]
      push_cast
      rw [Int.toNat_of_nonneg hnn]
      ring
    · rfl
  · rw [if_neg hlt] at hw
    obtain rfl := Option.some_injective _ hw
    have heq : (v.length : ℤ) = c.maxVectorSize := le_antisymm hle (not_lt.mp hlt)
    have hz : (c.maxVectorSize - (v.length : ℤ)).toNat = 0 := by omega
    exact ⟨heq, by rw [hz, List.replicate_zero, List.append_nil]⟩

theorem c5_vector_lengths_witness :
    corpusE.createVector "" = some [] ∧
    (((([] : List Fl).length : ℤ) =
        min ((corpusE.prune.termIndex.length : ℤ)) corpusE.maxVectorSize) ∧
    ((([] : List Fl).length : ℤ) ≤ corpusE.maxVectorSize) ∧
    ∀ w, corpusE.createPaddedVector "" = some w →
      (w.length : ℤ) = corpusE.maxVectorSize ∧
      w = ([] : List Fl) ++
        List.replicate (corpusE.maxVectorSize - (([] : List Fl).length : ℤ)).toNat
          (Fl.fin 0)) :=
  ⟨corpusE_createVector, c5_vector_lengths corpusE "" [] corpusE_createVector⟩

/-- C6: with at least one recognized term, `CreateVector` counts every
occurrence into a local table (`countTokens`, whose lookup is the
occurrence count), has `totalTerms` equal to the sum of all local
counts, and fills the unnormalized vector with
`tf * idf = (localFreq[term]/totalTerms) * (ln(documents/df[term]) + 1)`
over the first `min(|termIndex|, maxVectorSize)` sorted terms, before
normalizing. -/
theorem c6_tfidf_formula (c : Corpus) (hc : Reachable c) (text : String)
    (hmax : 0 ≤ c.maxVectorSize) (ht : c.prune.tok text ≠ []) :
    c.createVector text = some (normalizeVec (c.prune.rawVector text)) ∧
    c.prune.rawVector text = (c.prune.termIndex.take c.prune.vecLen.toNat).map
      (fun term => Fl.fin (specTfIdf c.prune text term)) ∧
    ((countTokens (c.prune.tok text)).map Prod.snd).sum = (c.prune.tok text).length ∧
    ∀ term, mapGet (countTokens (c.prune.tok text)) term = (c.prune.tok text).count term := by
  have hInv := inv_prune c (inv_of_reachable c hc)
  have hmax2 : c.prune.maxVectorSize = c.maxVectorSize := (Corpus.prune_frame c).1
  have h0 : 0 ≤ c.prune.vecLen := by
    unfold Corpus.vecLen
    rw [hmax2]
    exact le_min (by positivity) hmax
  exact ⟨c.createVector_eq text h0, Corpus.rawVector_eval _ hInv text ht,
    sumVals_countTokens _, fun term => mapGet_countTokens _ term⟩

theorem c6_tfidf_formula_witness :
    Reachable corpusA ∧ (0 : ℤ) ≤ corpusA.maxVectorSize ∧
    corpusA.prune.tok "a" ≠ [] ∧
    (corpusA.createVector "a" = some (normalizeVec (corpusA.prune.rawVector "a")) ∧
    corpusA.prune.rawVector "a" =
      (corpusA.prune.termIndex.take corpusA.prune.vecLen.toNat).map
        (fun term => Fl.fin (specTfIdf corpusA.prune "a" term)) ∧
    ((countTokens (corpusA.prune.tok "a")).map Prod.snd).sum =
      (corpusA.prune.tok "a").length ∧
    ∀ term, mapGet (countTokens (corpusA.prune.tok "a")) term =
      (corpusA.prune.tok "a").count term) :=
  have hmax : (0 : ℤ) ≤ corpusA.maxVectorSize := by decide
  have ht : corpusA.prune.tok "a" ≠ [] := by
    rw [corpusA_prune, corpusA_tok_a]
    simp
  ⟨reachable_corpusA, hmax, ht,
    c6_tfidf_formula corpusA reachable_corpusA "a" hmax ht⟩

/-- C3 (counterexample): at the one-document corpus and the empty-token
text, none of the text's terms is in the pruned vocabulary, yet the
returned vector `[NaN]` is neither all-zero nor of Euclidean norm 1 —
refuting both the disjunction and the "all-zero iff no vocabulary
match" equivalence of the claim. -/
theorem c3_norm_claim_cex :
    corpusA.createVector "" = some [Fl.nan] ∧
    (∀ t ∈ corpusA.prune.termIndex, t ∉ corpusA.prune.tok "") ∧
    ¬((allZero [Fl.nan] ∨ euclideanNorm [Fl.nan] = Fl.fin 1) ∧
      (allZero [Fl.nan] ↔ ∀ t ∈ corpusA.prune.termIndex, t ∉ corpusA.prune.tok "")) := by
  have hzero : ¬allZero [Fl.nan] := by
    intro h
    exact Fl.nan_ne_fin 0 (h Fl.nan (List.mem_singleton.mpr rfl))
  have hnomatch : ∀ t ∈ corpusA.prune.termIndex, t ∉ corpusA.prune.tok "" := by
    rw [corpusA_prune, corpusA_tok_empty]
    intro t _
    exact List.not_mem_nil t
  refine ⟨corpusA_createVector_empty, hnomatch, ?_⟩
  rintro ⟨hdisj, hiff⟩
  rcases hdisj with h | h
  · exact hzero h
  · rw [euclideanNorm_nan] at h
    exact Fl.nan_ne_fin 1 h
  -- the iff also fails, but one refuted conjunct suffices

/-- C3 (amended): for every reachable corpus and every text whose
tokenized/filtered term sequence is nonempty, a returned vector is
either all-zero or of Euclidean norm exactly 1 (in the real-valued
float model), and it is all-zero iff none of the text's terms is among
the terms that received coordinates (the first
`min(|termIndex|, maxVectorSize)` terms of the pruned index). -/
theorem c3_normalized_or_zero (c : Corpus) (hc : Reachable c) (text : String)
    (ht : c.prune.tok text ≠ []) (v : List Fl)
    (hv : c.createVector text = some v) :
    (allZero v ∨ euclideanNorm v = Fl.fin 1) ∧
    (allZero v ↔ ∀ t ∈ c.prune.termIndex.take c.prune.vecLen.toNat,
      t ∉ c.prune.tok text) := by
  have hInv := inv_prune c (inv_of_reachable c hc)
  obtain ⟨h0, hveq⟩ := c.createVector_some text v hv
  set c2 := c.prune with hc2
  set used := c2.termIndex.take c2.vecLen.toNat with hused
  set rs := used.map (specTfIdf c2 text) with hrs
  have hraw : c2.rawVector text = rs.map Fl.fin := by
    rw [Corpus.rawVector_eval c2 hInv text ht, hrs, List.map_map]
    rfl
  have hsub : ∀ term ∈ used, term ∈ c2.termIndex :=
    fun term h => List.take_subset _ _ h
  have hSnn : 0 ≤ (rs.map (fun r => r * r)).sum := squares_sum_nonneg rs
  rcases eq_or_lt_of_le hSnn with hS0 | hSpos
  · have hall : ∀ r ∈ rs, r = 0 := by
      intro r hr
      have h1 : r * r ∈ rs.map (fun r => r * r) := List.mem_map_of_mem _ hr
      have h2 : r * r ≤ (rs.map (fun r => r * r)).sum := by
        apply List.single_le_sum _ _ h1
        intro x hx
        obtain ⟨r1, -, rfl⟩ := List.mem_map.mp hx
        exact mul_self_nonneg r1
      nlinarith [mul_self_nonneg r]
    have hvz : v = rs.map Fl.fin := by
      rw [hveq, hraw, normalizeVec_of_sum_zero rs hS0.symm]
    have hallz : allZero v := by
      intro x hx
      rw [hvz] at hx
      obtain ⟨r, hr, rfl⟩ := List.mem_map.mp hx
      rw [hall r hr]
    refine ⟨Or.inl hallz, iff_of_true hallz ?_⟩
    intro term hterm
    have hz : specTfIdf c2 text term = 0 := hall _ (List.mem_map_of_mem _ hterm)
    exact (Corpus.specTfIdf_eq_zero_iff c2 hInv text term ht (hsub term hterm)).mp hz
  · have hvpos : v = rs.map (fun r =>
        Fl.fin (r / Real.sqrt ((rs.map (fun r => r * r)).sum))) := by
      rw [hveq, hraw, normalizeVec_of_sum_pos rs hSpos]
    have hnorm : euclideanNorm v = Fl.fin 1 := by
      rw [hvpos]
      exact euclideanNorm_normalized rs hSpos
    have hex : ∃ r ∈ rs, r ≠ 0 := by
      by_contra hno
      push_neg at hno
      have hz : (rs.map (fun r => r * r)).sum = 0 := by
        apply List.sum_eq_zero
        intro x hx
        obtain ⟨r, hr, rfl⟩ := List.mem_map.mp hx
        rw [hno r hr]
        ring
      linarith
    obtain ⟨r0, hr0mem, hr0⟩ := hex
    have hmne : Real.sqrt ((rs.map (fun r => r * r)).sum) ≠ 0 :=
      ne_of_gt (Real.sqrt_pos.mpr hSpos)
    have hnz : ¬allZero v := by
      intro hz
      have hx : Fl.fin (r0 / Real.sqrt ((rs.map (fun r => r * r)).sum)) ∈ v := by
        rw [hvpos]
        exact List.mem_map_of_mem _ hr0mem
      have he := Fl.fin_injective _ _ (hz _ hx)
      rw [div_eq_zero_iff] at he
      rcases he with he | he
      · exact hr0 he
      · exact hmne he
    have hrhs : ¬(∀ t ∈ used, t ∉ c2.tok text) := by
      intro hforall
      obtain ⟨term, htermmem, heq⟩ := List.mem_map.mp hr0mem
      have hz : specTfIdf c2 text term = 0 :=
        (Corpus.specTfIdf_eq_zero_iff c2 hInv text term ht
          (hsub term htermmem)).mpr (hforall term htermmem)
      rw [heq] at hz
      exact hr0 hz
    exact ⟨Or.inr hnorm, iff_of_false hnz hrhs⟩

theorem c3_normalized_or_zero_witness :
    Reachable corpusA ∧ corpusA.prune.tok "a" ≠ [] ∧
    corpusA.createVector "a" = some [Fl.fin 1] ∧
    ((allZero [Fl.fin 1] ∨ euclideanNorm [Fl.fin 1] = Fl.fin 1) ∧
      (allZero [Fl.fin 1] ↔
        ∀ t ∈ corpusA.prune.termIndex.take corpusA.prune.vecLen.toNat,
          t ∉ corpusA.prune.tok "a")) :=
  have ht : corpusA.prune.tok "a" ≠ [] := by
    rw [corpusA_prune, corpusA_tok_a]
    simp
  ⟨reachable_corpusA, ht, corpusA_createVector_a,
    c3_normalized_or_zero corpusA reachable_corpusA "a" ht [Fl.fin 1]
      corpusA_createVector_a⟩

end Corpse
